import Mathlib

/-!
Verification of the wash-sale detection engine of `src/App.jsx`
(`processTransactions`, `isInWashWindow`, `getSafeDate`, `daysUntil`,
`TickerChecker.checkTicker`, `WashSaleTracker.activeWindows`).

Embedding conventions:
* Calendar dates carry no time component in the engine (`parseDate`
  builds local midnights, `setDate` shifts whole calendar days), so a
  date is modelled as an `Int` day index; `new Date(0)` is day `0`.
  `daysUntil` divides a millisecond difference by one day and takes
  `Math.ceil`; at day granularity the quotient is already an integer,
  so the ceiling is the identity and the function is plain subtraction.
* Share quantities, prices and cash amounts are JavaScript numbers;
  they are modelled exactly as rationals (`ℚ`).
* The engine consumes the validated transaction list built at the top
  of `processTransactions` (rows restricted to `Buy`/`Sell`, quantity
  filtered positive); the CSV-text parsing itself is outside the model,
  so `processTransactions` here starts at the defensive sort.
* JavaScript `Array.prototype.sort` is stable; it is modelled by
  `List.insertionSort`, which is also stable.
-/

namespace WashSale

/-- Transaction kind: the engine keeps only `Buy` and `Sell` rows. -/
inductive TransType where
  | buy
  | sell
deriving DecidableEq, Repr

/-- A validated transaction record (`{date, ticker, transType, quantity,
price, amount}` as built from a CSV row in `processTransactions`). -/
structure Txn where
  date : Int
  ticker : String
  transType : TransType
  quantity : ℚ
  price : ℚ
  amount : ℚ
deriving DecidableEq, Repr

/-- An open acquisition lot (`{date, quantity, price, remaining}` as pushed
onto `lots[ticker]` on a Buy). -/
structure Lot where
  date : Int
  quantity : ℚ
  price : ℚ
  remaining : ℚ
deriving DecidableEq, Repr

/-- A loss-sale record as constructed in the Sell branch of
`processTransactions`. -/
structure LossSale where
  ticker : String
  saleDate : Int
  quantity : ℚ
  salePrice : ℚ
  proceeds : ℚ
  costBasis : ℚ
  lossAmount : ℚ
deriving DecidableEq, Repr

/-- A wash-sale violation record as pushed onto `violations`. -/
structure Violation where
  ticker : String
  lossSale : LossSale
  buyDate : Int
  buyQuantity : ℚ
  disallowedLoss : ℚ
deriving DecidableEq, Repr

/-- The content of the warning string
`No buy lots found for TICKER sell on DATE`. -/
structure EngineWarning where
  ticker : String
  date : Int
deriving DecidableEq, Repr

/-- The `isInWashWindow(saleDate, checkDate)` predicate: `checkDate` lies in
the inclusive 61-day window `[saleDate − 30, saleDate + 30]`. -/
def isInWashWindow (saleDate checkDate : Int) : Bool :=
  saleDate - 30 ≤ checkDate && checkDate ≤ saleDate + 30

/-- The `getSafeDate(saleDate)` helper: `saleDate + 31` days. -/
def getSafeDate (saleDate : Int) : Int :=
  saleDate + 31

/-- The `daysUntil(targetDate, fromDate)` helper; the source's
`Math.ceil(diff / 86400000)` collapses to subtraction at day granularity. -/
def daysUntil (targetDate fromDate : Int) : Int :=
  targetDate - fromDate

/-- Sort rank used on date ties: the comparator maps Sells to `1` and
everything else to `0`, so Buys come first on a tied date. -/
def sellRank (t : Txn) : Nat :=
  match t.transType with
  | .sell => 1
  | .buy => 0

/-- The ordering realised by the comparator passed to `transactions.sort`:
earlier date first, and on a tied date Buys (rank 0) before Sells (rank 1). -/
def txnLE (a b : Txn) : Prop :=
  a.date < b.date ∨ (a.date = b.date ∧ sellRank a ≤ sellRank b)

instance : DecidableRel txnLE := by
  intro a b
  unfold txnLE
  infer_instance

instance : IsTotal Txn txnLE := by
  constructor
  intro a b
  rcases lt_trichotomy a.date b.date with h | h | h
  · exact Or.inl (Or.inl h)
  · rcases Nat.le_total (sellRank a) (sellRank b) with h2 | h2
    · exact Or.inl (Or.inr ⟨h, h2⟩)
    · exact Or.inr (Or.inr ⟨h.symm, h2⟩)
  · exact Or.inr (Or.inl h)

instance : IsTrans Txn txnLE := by
  constructor
  intro a b c hab hbc
  rcases hab with h1 | ⟨h1, h1r⟩
  · rcases hbc with h2 | ⟨h2, _⟩
    · exact Or.inl (h1.trans h2)
    · exact Or.inl (h2 ▸ h1)
  · rcases hbc with h2 | ⟨h2, h2r⟩
    · exact Or.inl (h1 ▸ h2)
    · exact Or.inr ⟨h1.trans h2, h1r.trans h2r⟩

/-- The defensive sort at the top of the engine: stable sort by
`(date, Buy-before-Sell)`. -/
def sortTxns (txns : List Txn) : List Txn :=
  List.insertionSort txnLE txns

/-- Mutable engine state threaded through the one-pass traversal:
the per-ticker lot queues and the accumulating output lists. -/
structure EngineState where
  lots : String → List Lot
  lossSales : List LossSale
  violations : List Violation
  warnings : List EngineWarning

/-- The fresh state at the start of a run. -/
def initState : EngineState :=
  { lots := fun _ => [], lossSales := [], violations := [], warnings := [] }

/-- Lot-depletion threshold: the cleanup filter keeps lots with
`remaining > 0.0001`. -/
def lotEpsilon : ℚ :=
  1 / 10000

/-- The FIFO consumption loop of the Sell branch: walk the queue from the
head, skip lots with `remaining ≤ 0`, stop once nothing is left to sell,
and take `min(lot.remaining, remainingToSell)` from each lot, decrementing
its `remaining` in place.  Returns
`(totalCostBasis, quantitySold, queue after the in-place updates)`. -/
def fifoSell : List Lot → ℚ → ℚ × ℚ × List Lot
  | [], _ => (0, 0, [])
  | lot :: rest, toSell =>
    if toSell ≤ 0 then
      (0, 0, lot :: rest)
    else if lot.remaining ≤ 0 then
      let r := fifoSell rest toSell
      (r.1, r.2.1, lot :: r.2.2)
    else
      let take := min lot.remaining toSell
      let r := fifoSell rest (toSell - take)
      (take * lot.price + r.1, take + r.2.1,
        { lot with remaining := lot.remaining - take } :: r.2.2)

/-- The violations the forward pass emits when a Buy is processed: one per
previously recorded same-ticker loss sale whose wash window contains the
buy date, with the proportional disallowed loss. -/
def forwardViolations (lossSales : List LossSale) (txn : Txn) : List Violation :=
  (lossSales.filter fun ls =>
      ls.ticker == txn.ticker && isInWashWindow ls.saleDate txn.date).map
    fun ls =>
      { ticker := txn.ticker
        lossSale := ls
        buyDate := txn.date
        buyQuantity := txn.quantity
        disallowedLoss := min txn.quantity ls.quantity / ls.quantity * ls.lossAmount }

/-- The Buy branch: append a fresh lot (`remaining = quantity`) to the
ticker's queue, then run the forward wash-window pass against the loss
sales recorded so far. -/
def processBuy (st : EngineState) (txn : Txn) : EngineState :=
  { st with
    lots := fun t =>
      if t == txn.ticker then
        st.lots txn.ticker ++ [⟨txn.date, txn.quantity, txn.price, txn.quantity⟩]
      else
        st.lots t
    violations := st.violations ++ forwardViolations st.lossSales txn }

/-- The deduplication test of the backward pass: an already recorded
violation with the same loss-sale date, buy date and ticker. -/
def keyMatches (v : Violation) (ticker : String) (saleDate buyDate : Int) : Bool :=
  v.lossSale.saleDate == saleDate && v.buyDate == buyDate && v.ticker == ticker

/-- The backward pass run when a new loss sale is created: scan the whole
sorted transaction list for same-ticker Buys strictly before the sale date
and inside the wash window, appending a violation for each unless one with
the same `(ticker, saleDate, buyDate)` key is already recorded. -/
def backwardScan (allTxns : List Txn) (txn : Txn) (ls : LossSale)
    (quantitySold lossAmt : ℚ) (viols : List Violation) : List Violation :=
  allTxns.foldl
    (fun vs pt =>
      if pt.transType == TransType.buy && pt.ticker == txn.ticker &&
          pt.date < txn.date && isInWashWindow txn.date pt.date then
        if vs.any fun v => keyMatches v txn.ticker txn.date pt.date then
          vs
        else
          vs ++ [{ ticker := txn.ticker
                   lossSale := ls
                   buyDate := pt.date
                   buyQuantity := pt.quantity
                   disallowedLoss := min pt.quantity quantitySold / quantitySold * lossAmt }]
      else
        vs)
    viols

/-- The FIFO loop's result `(totalCostBasis, quantitySold, updated queue)`
for a Sell against the current state of its ticker's queue. -/
def sellMatch (st : EngineState) (txn : Txn) : ℚ × ℚ × List Lot :=
  fifoSell (st.lots txn.ticker) txn.quantity

/-- Pro-rated proceeds of a Sell:
`amount * (quantitySold / txn.quantity)`. -/
def sellProceeds (st : EngineState) (txn : Txn) : ℚ :=
  txn.amount * ((sellMatch st txn).2.1 / txn.quantity)

/-- Realized gain or loss of a Sell: pro-rated proceeds minus the matched
cost basis. -/
def sellGainLoss (st : EngineState) (txn : Txn) : ℚ :=
  sellProceeds st txn - (sellMatch st txn).1

/-- The loss-sale record built in the Sell branch when the gain or loss is
strictly negative. -/
def sellLossSale (st : EngineState) (txn : Txn) : LossSale :=
  { ticker := txn.ticker
    saleDate := txn.date
    quantity := (sellMatch st txn).2.1
    salePrice := txn.price
    proceeds := sellProceeds st txn
    costBasis := (sellMatch st txn).1
    lossAmount := |sellGainLoss st txn| }

/-- The ticker's queue after a Sell: the FIFO loop's in-place updates
followed by the cleanup filter dropping lots with `remaining ≤ 0.0001`. -/
def sellCleanedLots (st : EngineState) (txn : Txn) : List Lot :=
  (sellMatch st txn).2.2.filter fun l => lotEpsilon < l.remaining

/-- The Sell branch: warn and skip when the ticker's queue is empty;
skip entirely (`continue`, which also skips the cleanup filter, though a
zero match leaves the queue untouched anyway) when nothing matched;
otherwise record a loss sale and run the backward pass when the matched
result is a strict loss, and drop depleted lots from the queue. -/
def processSell (allTxns : List Txn) (st : EngineState) (txn : Txn) : EngineState :=
  if (st.lots txn.ticker).isEmpty then
    { st with warnings := st.warnings ++ [⟨txn.ticker, txn.date⟩] }
  else if (sellMatch st txn).2.1 == 0 then
    st
  else if sellGainLoss st txn < 0 then
    { lots := fun t => if t == txn.ticker then sellCleanedLots st txn else st.lots t
      lossSales := st.lossSales ++ [sellLossSale st txn]
      violations :=
        backwardScan allTxns txn (sellLossSale st txn) (sellMatch st txn).2.1
          |sellGainLoss st txn| st.violations
      warnings := st.warnings }
  else
    { st with lots := fun t => if t == txn.ticker then sellCleanedLots st txn else st.lots t }

/-- One step of the main `for (const txn of transactions)` loop. -/
def stepTxn (allTxns : List Txn) (st : EngineState) (txn : Txn) : EngineState :=
  match txn.transType with
  | .buy => processBuy st txn
  | .sell => processSell allTxns st txn

/-- The whole engine pass: sort defensively, then fold the step over the
sorted list (the backward pass scans that same sorted list). -/
def runEngine (txns : List Txn) : EngineState :=
  (sortTxns txns).foldl (stepTxn (sortTxns txns)) initState

/-- The active-window filter shared by `processTransactions` and the
`WashSaleTracker.activeWindows` memo: a loss sale is active relative to
`asOf` iff `getSafeDate(saleDate) > asOf`. -/
def activeWindowsOf (lossSales : List LossSale) (asOf : Int) : List LossSale :=
  lossSales.filter fun ls => asOf < getSafeDate ls.saleDate

/-- The report value returned by `processTransactions` (summary counts,
which no claim touches, are derived from `transactions` and omitted). -/
structure Report where
  transactions : List Txn
  lossSales : List LossSale
  violations : List Violation
  activeWindows : List LossSale
  warnings : List EngineWarning
deriving DecidableEq, Repr

/-- `processTransactions` from the sort onward: run the engine and package
the report. -/
def processTransactions (txns : List Txn) (asOfDate : Int) : Report :=
  let final := runEngine txns
  { transactions := sortTxns txns
    lossSales := final.lossSales
    violations := final.violations
    activeWindows := activeWindowsOf final.lossSales asOfDate
    warnings := final.warnings }

/-- JavaScript `toUpperCase` on the ASCII tickers the engine handles. -/
def jsToUpperCase (s : String) : String :=
  ⟨s.data.map Char.toUpper⟩

/-- JavaScript `trim`: strip whitespace from both ends. -/
def jsTrim (s : String) : String :=
  ⟨((s.data.dropWhile Char.isWhitespace).reverse.dropWhile Char.isWhitespace).reverse⟩

/-- Day index of `new Date(0)`, the seed of the safe-date reduction in
`checkTicker`. -/
def epochDate : Int :=
  0

/-- Result of the check-ticker query: either safe, or a warning carrying
the matching windows, the latest safe date and the remaining days. -/
inductive CheckResult where
  | safe (ticker : String)
  | warn (ticker : String) (windows : List LossSale) (safeDate : Int) (daysUntilSafe : Int)
deriving DecidableEq, Repr

/-- The `reduce` inside `checkTicker`: keep the later of the running value
and each match's safe date, starting from `init`. -/
def safeDateFold (l : List LossSale) (init : Int) : Int :=
  l.foldl
    (fun latest w =>
      if latest < getSafeDate w.saleDate then getSafeDate w.saleDate else latest)
    init

/-- The latest safe date over the matching windows, seeded with
`new Date(0)` as in the source's `reduce`. -/
def latestSafeDate (matching : List LossSale) : Int :=
  safeDateFold matching epochDate

/-- `TickerChecker.checkTicker`: bail out on a blank query (`none`);
otherwise uppercase the trimmed query, keep the active windows whose
stored ticker is exactly that string, report safe when none remain, and
otherwise report the warning data with the latest safe date over the
matches. -/
def checkTicker (activeWindows : List LossSale) (asOfDate : Int) (ticker : String) :
    Option CheckResult :=
  if (jsTrim ticker).isEmpty then
    none
  else
    let upperTicker := jsToUpperCase (jsTrim ticker)
    let matching := activeWindows.filter fun w => w.ticker == upperTicker
    if matching.isEmpty then
      some (.safe upperTicker)
    else
      some (.warn upperTicker matching (latestSafeDate matching)
        (daysUntil (latestSafeDate matching) asOfDate))

/-- Case-insensitive exact ticker comparison, modelled from the spec's
words for `checkTicker` ("case-insensitive exact match only"): the two
strings agree once both are uppercased. -/
def specTickerMatch (query stored : String) : Bool :=
  jsToUpperCase (jsTrim query) == jsToUpperCase stored

/-- Deduplication key of a violation: `(ticker, saleDate, buyDate)`. -/
def violKey (v : Violation) : String × Int × Int :=
  (v.ticker, v.lossSale.saleDate, v.buyDate)

/-- A violation's disallowed loss follows the proportional formula
`min(buyQuantity, quantitySold) / quantitySold × lossAmount` of its own
loss sale. -/
def ProportionalLoss (v : Violation) : Prop :=
  v.disallowedLoss =
    min v.buyQuantity v.lossSale.quantity / v.lossSale.quantity * v.lossSale.lossAmount

/-- Among violations whose buy strictly precedes their sale date, the
deduplication key `(ticker, saleDate, buyDate)` never repeats. -/
def KeyedOnce (vs : List Violation) : Prop :=
  vs.Pairwise fun v w => v.buyDate < v.lossSale.saleDate → violKey v ≠ violKey w

/-- Run invariant on the accumulated violation list: every entry obeys the
proportional formula, none pairs a buy with its own sale date, and
buy-before-sale entries have pairwise distinct deduplication keys. -/
def ViolsInv (vs : List Violation) : Prop :=
  (∀ v ∈ vs, ProportionalLoss v) ∧
    (∀ v ∈ vs, v.buyDate ≠ v.lossSale.saleDate) ∧ KeyedOnce vs

/-- Every recorded loss sale predates every Buy still to be processed;
the sort order (Buys before Sells on a tied date) keeps this invariant. -/
def LossSalesBeforeBuys (lossSales : List LossSale) (rem : List Txn) : Prop :=
  ∀ ls ∈ lossSales, ∀ t ∈ rem, t.transType = TransType.buy → ls.saleDate < t.date

/-- Demo input for FIFO matching: two lots of 10 at unit prices 5 and 7,
then a sell of 15 at price 6. -/
def demoFifo : List Txn :=
  [⟨0, "XYZ", .buy, 10, 5, -50⟩, ⟨1, "XYZ", .buy, 10, 7, -70⟩,
   ⟨2, "XYZ", .sell, 15, 6, 90⟩]

/-- Demo input: buy exactly 30 days before a loss sale on day 100. -/
def demoWinA : List Txn :=
  [⟨70, "T", .buy, 10, 10, -100⟩, ⟨100, "T", .sell, 10, 5, 50⟩]

/-- Demo input: buy 31 days before a loss sale on day 100. -/
def demoWinB : List Txn :=
  [⟨69, "T", .buy, 10, 10, -100⟩, ⟨100, "T", .sell, 10, 5, 50⟩]

/-- Demo input: out-of-window buy supplying the lots, loss sale on day
100, then a buy exactly 30 days after. -/
def demoWinC : List Txn :=
  [⟨0, "T", .buy, 10, 10, -100⟩, ⟨100, "T", .sell, 10, 5, 50⟩,
   ⟨130, "T", .buy, 10, 10, -100⟩]

/-- Demo input: like `demoWinC` but the later buy is 31 days after. -/
def demoWinD : List Txn :=
  [⟨0, "T", .buy, 10, 10, -100⟩, ⟨100, "T", .sell, 10, 5, 50⟩,
   ⟨131, "T", .buy, 10, 10, -100⟩]

/-- The loss sale produced by the demo wash-window inputs: 10 shares
bought for 100 and sold for 50 on day 100. -/
def demoLs100 : LossSale :=
  ⟨"T", 100, 10, 5, 50, 100, 50⟩

/-- Demo input for same-day ordering: the Sell appears before the Buy in
input order, both dated day 5. -/
def demoSameDay : List Txn :=
  [⟨5, "XYZ", .sell, 10, 12, 120⟩, ⟨5, "XYZ", .buy, 10, 10, -100⟩]

/-- Demo input for uncapped per-pair disallowed losses: one buy before and
one buy after a loss sale on day 50, each matching its full quantity. -/
def demoUncapped : List Txn :=
  [⟨40, "T", .buy, 10, 10, -100⟩, ⟨50, "T", .sell, 10, 5, 50⟩,
   ⟨60, "T", .buy, 10, 10, -100⟩]

/-- The loss sale of `demoUncapped`: 10 shares bought for 100, sold for 50
on day 50. -/
def demoLs50 : LossSale :=
  ⟨"T", 50, 10, 5, 50, 100, 50⟩

/-- Demo input for deduplication: a single in-window buy before a loss
sale on day 40 and nothing after it. -/
def demoDedup : List Txn :=
  [⟨20, "T", .buy, 10, 10, -100⟩, ⟨40, "T", .sell, 10, 5, 50⟩]

/-- The loss sale of `demoDedup`. -/
def demoLs40 : LossSale :=
  ⟨"T", 40, 10, 5, 50, 100, 50⟩

/-- An active window stored with a lowercase ticker, for the check-ticker
case-sensitivity analysis. -/
def demoLowerLs : LossSale :=
  ⟨"aapl", 100, 10, 5, 50, 100, 50⟩

/-- Demo input with a same-ticker buy dated exactly on the sale date of a
loss sale (day 50), plus an out-of-window buy supplying the lots. -/
def demoSameDayBuy : List Txn :=
  [⟨0, "T", .buy, 10, 10, -100⟩, ⟨50, "T", .buy, 5, 4, -20⟩,
   ⟨50, "T", .sell, 10, 5, 50⟩]

/-- The loss sale of `demoSameDayBuy`: 10 shares with cost basis 100 sold
for 50 on day 50. -/
def demoLsSameDay : LossSale :=
  ⟨"T", 50, 10, 5, 50, 100, 50⟩

section ConcreteEvaluation

attribute [local semireducible] Rat.add Rat.mul Rat.inv Rat.sub

/-- The matched quantity of the FIFO loop is everything available, capped
at the requested quantity. -/
theorem fifoSell_quantity_eq_min (lots : List Lot) :
    ∀ q : ℚ, (∀ l ∈ lots, 0 ≤ l.remaining) → 0 ≤ q →
      (fifoSell lots q).2.1 = min q (lots.map Lot.remaining).sum := by
  induction lots with
  | nil =>
    intro q _ hq
    simpa [fifoSell] using (min_eq_right hq).symm
  | cons lot rest ih =>
    intro q hpos hq
    have hrest : ∀ l ∈ rest, 0 ≤ l.remaining :=
      fun l hl => hpos l (List.mem_cons_of_mem _ hl)
    have hsum : 0 ≤ (rest.map Lot.remaining).sum := by
      apply List.sum_nonneg
      intro x hx
      obtain ⟨l, hl, rfl⟩ := List.mem_map.1 hx
      exact hrest l hl
    by_cases h0 : q ≤ 0
    · have hq0 : q = 0 := le_antisymm h0 hq
      subst hq0
      have htot : 0 ≤ ((lot :: rest).map Lot.remaining).sum := by
        apply List.sum_nonneg
        intro x hx
        obtain ⟨l, hl, rfl⟩ := List.mem_map.1 hx
        exact hpos l hl
      simp only [fifoSell, if_pos le_rfl]
      exact (min_eq_left htot).symm
    · push_neg at h0
      by_cases hlr : lot.remaining ≤ 0
      · have hl0 : lot.remaining = 0 := le_antisymm hlr (hpos lot (List.mem_cons_self _ _))
        simp only [fifoSell, if_neg (not_le.2 h0), if_pos hlr]
        rw [ih q hrest hq]
        simp [hl0]
      · push_neg at hlr
        simp only [fifoSell, if_neg (not_le.2 h0), if_neg (not_le.2 hlr)]
        have htq : 0 ≤ q - min lot.remaining q := by
          have : min lot.remaining q ≤ q := min_le_right _ _
          linarith
        rw [ih (q - min lot.remaining q) hrest htq]
        rcases le_total lot.remaining q with hc | hc
        · rw [min_eq_left hc]
          rw [List.map_cons, List.sum_cons]
          rw [← min_add_add_left lot.remaining (q - lot.remaining) ((rest.map Lot.remaining).sum)]
          ring_nf
        · rw [min_eq_right hc]
          have : q - q = 0 := by ring
          rw [this, min_eq_left hsum]
          rw [List.map_cons, List.sum_cons]
          have hle : q ≤ lot.remaining + (rest.map Lot.remaining).sum := by linarith
          rw [min_eq_left hle]
          ring

/-- C1: the FIFO loop consumes lots in acquisition order, taking
`min(lot.remaining, stillNeeded)` from each, its matched quantity is the
requested quantity capped at the total available, its matched cost basis
is the sum of consumed quantity times each lot's unit price; on lots
`[(10 at 5), (10 at 7)]` a sell of 15 matches a cost basis of 85 and the
engine leaves the single lot `(5 at 7)` in the queue. -/
theorem c1_fifo_cost_basis :
    (∀ (lots : List Lot) (q : ℚ), (∀ l ∈ lots, 0 ≤ l.remaining) → 0 ≤ q →
        (fifoSell lots q).2.1 = min q (lots.map Lot.remaining).sum) ∧
    fifoSell [⟨0, 10, 5, 10⟩, ⟨1, 10, 7, 10⟩] 15 =
      (85, 15, [⟨0, 10, 5, 0⟩, ⟨1, 10, 7, 5⟩]) ∧
    (runEngine demoFifo).lots "XYZ" = [⟨1, 10, 7, 5⟩] :=
  ⟨fifoSell_quantity_eq_min, by decide, by decide⟩

/-- Witness for `c1_fifo_cost_basis`: its general part evaluated on one
lot of 10 with a request of 3. -/
theorem c1_fifo_cost_basis_witness :
    (fifoSell [⟨0, 10, 5, 10⟩] 3).2.1 = min 3 (([⟨0, 10, 5, 10⟩] : List Lot).map Lot.remaining).sum :=
  c1_fifo_cost_basis.1 [⟨0, 10, 5, 10⟩] 3 (by decide) (by decide)

/-- C2: the wash window is the inclusive 61-day span
`[saleDate − 30, saleDate + 30]`: in-window at both endpoints, out at 31
days; end-to-end, a loss sale on day 100 with a same-ticker buy on day 70
or day 130 yields a violation for that buy, and with a buy on day 69 or
day 131 the loss sale exists but no violation is emitted. -/
theorem c2_window_inclusivity :
    (∀ D : Int,
        isInWashWindow D (D - 30) = true ∧ isInWashWindow D (D + 30) = true ∧
        isInWashWindow D (D - 31) = false ∧ isInWashWindow D (D + 31) = false) ∧
    (processTransactions demoWinA 0).violations = [⟨"T", demoLs100, 70, 10, 50⟩] ∧
    (processTransactions demoWinB 0).lossSales = [demoLs100] ∧
    (processTransactions demoWinB 0).violations = [] ∧
    (processTransactions demoWinC 0).violations = [⟨"T", demoLs100, 130, 10, 50⟩] ∧
    (processTransactions demoWinD 0).lossSales = [demoLs100] ∧
    (processTransactions demoWinD 0).violations = [] := by
  refine ⟨fun D => ⟨?_, ?_, ?_, ?_⟩, by decide, by decide, by decide, by decide, by decide,
    by decide⟩ <;>
  · simp only [isInWashWindow, Bool.and_eq_true, decide_eq_true_eq, Bool.and_eq_false_iff,
      decide_eq_false_iff_not, not_le]
    omega

end ConcreteEvaluation

/-- Witness for `c2_window_inclusivity`: its universal part at day 0. -/
theorem c2_window_inclusivity_witness :
    isInWashWindow 0 (0 - 30) = true ∧ isInWashWindow 0 (0 + 30) = true ∧
    isInWashWindow 0 (0 - 31) = false ∧ isInWashWindow 0 (0 + 31) = false :=
  c2_window_inclusivity.1 0

/-- C4: a loss sale is listed as an active window relative to `asOf`
exactly when it is among the report's loss sales and
`getSafeDate(saleDate) > asOf`; that holds precisely for `asOf` up to and
including `saleDate + 30`, and the remaining-day count at
`asOf = saleDate + 30` is 1. -/
theorem c4_active_window_expiry :
    ∀ (lossSales : List LossSale) (asOf : Int) (ls : LossSale),
      (ls ∈ activeWindowsOf lossSales asOf ↔
        ls ∈ lossSales ∧ asOf < getSafeDate ls.saleDate) ∧
      (asOf < getSafeDate ls.saleDate ↔ asOf ≤ ls.saleDate + 30) ∧
      daysUntil (getSafeDate ls.saleDate) (ls.saleDate + 30) = 1 := by
  intro lossSales asOf ls
  refine ⟨?_, ?_, ?_⟩
  · simp [activeWindowsOf, List.mem_filter]
  · unfold getSafeDate
    omega
  · unfold daysUntil getSafeDate
    ring

/-- Witness for `c4_active_window_expiry`: evaluated on the sale-day-40
loss sale with `asOf = 0`. -/
theorem c4_active_window_expiry_witness :
    (demoLs40 ∈ activeWindowsOf [demoLs40] 0 ↔
      demoLs40 ∈ [demoLs40] ∧ (0 : Int) < getSafeDate demoLs40.saleDate) ∧
    ((0 : Int) < getSafeDate demoLs40.saleDate ↔ (0 : Int) ≤ demoLs40.saleDate + 30) ∧
    daysUntil (getSafeDate demoLs40.saleDate) (demoLs40.saleDate + 30) = 1 :=
  c4_active_window_expiry [demoLs40] 0 demoLs40

section ConcreteSameDay

attribute [local semireducible] Rat.add Rat.mul Rat.inv Rat.sub

/-- C5: for every input list, the defensive sort returns a permutation of
the input that is pairwise ordered by non-decreasing date with Sells
never preceding Buys on a tied date; concretely, an input holding a Sell
before a same-day Buy of the same ticker is reordered Buy-first and the
engine run emits no missing-lot warning. -/
theorem c5_same_day_ordering :
    (∀ txns : List Txn,
        (sortTxns txns).Perm txns ∧
        (sortTxns txns).Pairwise fun a b =>
          a.date ≤ b.date ∧
            (a.date = b.date → a.transType = TransType.sell →
              b.transType = TransType.sell)) ∧
    sortTxns demoSameDay =
      [⟨5, "XYZ", .buy, 10, 10, -100⟩, ⟨5, "XYZ", .sell, 10, 12, 120⟩] ∧
    (processTransactions demoSameDay 0).warnings = [] ∧
    (processTransactions demoSameDay 0).lossSales = [] ∧
    (processTransactions demoSameDay 0).violations = [] := by
  refine ⟨fun txns => ⟨List.perm_insertionSort _ _, ?_⟩, by decide, by decide, by decide,
    by decide⟩
  have hs := List.sorted_insertionSort txnLE txns
  refine hs.imp ?_
  intro a b hab
  rcases hab with h | ⟨h, hr⟩
  · exact ⟨le_of_lt h, fun he => absurd he (ne_of_lt h)⟩
  · refine ⟨le_of_eq h, fun _ hsell => ?_⟩
    cases hb : b.transType with
    | sell => rfl
    | buy =>
      exfalso
      rw [sellRank, sellRank, hsell, hb] at hr
      simp at hr

/-- Witness for `c5_same_day_ordering`: its universal part evaluated on
the same-day demo input. -/
theorem c5_same_day_ordering_witness :
    (sortTxns demoSameDay).Perm demoSameDay ∧
    (sortTxns demoSameDay).Pairwise fun a b =>
      a.date ≤ b.date ∧
        (a.date = b.date → a.transType = TransType.sell →
          b.transType = TransType.sell) :=
  c5_same_day_ordering.1 demoSameDay

end ConcreteSameDay

/-- C6: when the queue held lots and the FIFO loop matched a positive
quantity, the Sell branch appends a loss-sale record exactly when the
realized gain or loss is strictly negative, and that record carries
`lossAmount = −gainLoss` and `quantity = matchedQuantity`; a sell the
ledger skipped (empty queue or zero match) appends nothing. -/
theorem c6_loss_sale_detector :
    ∀ (allTxns : List Txn) (st : EngineState) (txn : Txn),
      (st.lots txn.ticker ≠ [] → 0 < (sellMatch st txn).2.1 →
        (sellGainLoss st txn < 0 →
          (processSell allTxns st txn).lossSales = st.lossSales ++ [sellLossSale st txn] ∧
            (sellLossSale st txn).lossAmount = -sellGainLoss st txn ∧
            (sellLossSale st txn).quantity = (sellMatch st txn).2.1) ∧
        (0 ≤ sellGainLoss st txn →
          (processSell allTxns st txn).lossSales = st.lossSales)) ∧
      (st.lots txn.ticker = [] → (processSell allTxns st txn).lossSales = st.lossSales) ∧
      ((sellMatch st txn).2.1 = 0 → (processSell allTxns st txn).lossSales = st.lossSales) := by
  intro allTxns st txn
  refine ⟨?_, ?_, ?_⟩
  · intro h1 h2
    have he : ¬ (st.lots txn.ticker).isEmpty = true := by
      simp only [List.isEmpty_iff]
      exact h1
    have hs0 : ¬ ((sellMatch st txn).2.1 == 0) = true := by
      simp only [beq_iff_eq]
      exact ne_of_gt h2
    constructor
    · intro hlt
      unfold processSell
      rw [if_neg he, if_neg hs0, if_pos hlt]
      exact ⟨rfl, abs_of_neg hlt, rfl⟩
    · intro hge
      unfold processSell
      rw [if_neg he, if_neg hs0, if_neg (not_lt.2 hge)]
  · intro h
    have he : (st.lots txn.ticker).isEmpty = true := by
      rw [h]
      rfl
    unfold processSell
    rw [if_pos he]
  · intro h0
    unfold processSell
    by_cases he : (st.lots txn.ticker).isEmpty = true
    · rw [if_pos he]
    · rw [if_neg he, if_pos (by simp only [beq_iff_eq]; exact h0)]

section ConcreteWitness

attribute [local semireducible] Rat.add Rat.mul Rat.inv Rat.sub

/-- Witness for `c6_loss_sale_detector`: a sell of 10 at price 5 against
one lot of 10 at price 10 is a strict loss and appends that loss sale. -/
theorem c6_loss_sale_detector_witness :
    (processSell [] { initState with lots := fun t => if t == "T" then [⟨0, 10, 10, 10⟩] else [] }
        ⟨9, "T", .sell, 10, 5, 50⟩).lossSales =
      [sellLossSale { initState with lots := fun t => if t == "T" then [⟨0, 10, 10, 10⟩] else [] }
        ⟨9, "T", .sell, 10, 5, 50⟩] := by
  have h := (c6_loss_sale_detector []
    { initState with lots := fun t => if t == "T" then [⟨0, 10, 10, 10⟩] else [] }
    ⟨9, "T", .sell, 10, 5, 50⟩).1 (by decide) (by decide)
  exact (h.1 (by decide)).1

end ConcreteWitness

/-- C9: a Sell against an empty queue records exactly one warning carrying
its ticker and date and leaves loss sales, violations and all lot queues
untouched; a Sell against a non-empty queue records no warning, and when
it realizes a loss the appended record's proceeds are pro-rated to
`amount × (matchedQuantity / quantity)`. -/
theorem c9_empty_queue_warning :
    ∀ (allTxns : List Txn) (st : EngineState) (txn : Txn),
      (st.lots txn.ticker = [] →
        (processSell allTxns st txn).warnings = st.warnings ++ [⟨txn.ticker, txn.date⟩] ∧
          (processSell allTxns st txn).lossSales = st.lossSales ∧
          (processSell allTxns st txn).violations = st.violations ∧
          (processSell allTxns st txn).lots = st.lots) ∧
      (st.lots txn.ticker ≠ [] → (processSell allTxns st txn).warnings = st.warnings) ∧
      (st.lots txn.ticker ≠ [] → 0 < (sellMatch st txn).2.1 → sellGainLoss st txn < 0 →
        (processSell allTxns st txn).lossSales = st.lossSales ++ [sellLossSale st txn] ∧
          (sellLossSale st txn).proceeds =
            txn.amount * ((sellMatch st txn).2.1 / txn.quantity)) := by
  intro allTxns st txn
  refine ⟨?_, ?_, ?_⟩
  · intro h
    have he : (st.lots txn.ticker).isEmpty = true := by
      rw [h]
      rfl
    unfold processSell
    rw [if_pos he]
    exact ⟨rfl, rfl, rfl, rfl⟩
  · intro h1
    have he : ¬ (st.lots txn.ticker).isEmpty = true := by
      simp only [List.isEmpty_iff]
      exact h1
    unfold processSell
    rw [if_neg he]
    by_cases hs0 : ((sellMatch st txn).2.1 == 0) = true
    · rw [if_pos hs0]
    · rw [if_neg hs0]
      by_cases hlt : sellGainLoss st txn < 0
      · rw [if_pos hlt]
      · rw [if_neg hlt]
  · intro h1 h2 hlt
    have he : ¬ (st.lots txn.ticker).isEmpty = true := by
      simp only [List.isEmpty_iff]
      exact h1
    have hs0 : ¬ ((sellMatch st txn).2.1 == 0) = true := by
      simp only [beq_iff_eq]
      exact ne_of_gt h2
    unfold processSell
    rw [if_neg he, if_neg hs0, if_pos hlt]
    exact ⟨rfl, rfl⟩

/-- Witness for `c9_empty_queue_warning`: selling a ticker with an empty
queue records exactly the one warning. -/
theorem c9_empty_queue_warning_witness :
    (processSell [] initState ⟨9, "T", .sell, 10, 5, 50⟩).warnings =
      initState.warnings ++ [⟨"T", 9⟩] :=
  ((c9_empty_queue_warning [] initState ⟨9, "T", .sell, 10, 5, 50⟩).1 rfl).1

/-- The seed never exceeds the safe-date fold's result. -/
theorem init_le_safeDateFold (l : List LossSale) :
    ∀ init : Int, init ≤ safeDateFold l init := by
  induction l with
  | nil => intro init; exact le_rfl
  | cons w l ih =>
    intro init
    have hstep : init ≤ if init < getSafeDate w.saleDate then getSafeDate w.saleDate else init := by
      by_cases h : init < getSafeDate w.saleDate
      · rw [if_pos h]; exact le_of_lt h
      · rw [if_neg h]
    calc init ≤ if init < getSafeDate w.saleDate then getSafeDate w.saleDate else init := hstep
      _ ≤ _ := ih _

/-- Every match's safe date is bounded by the safe-date fold's result. -/
theorem safeDateFold_ge (l : List LossSale) :
    ∀ (init : Int) (w : LossSale), w ∈ l → getSafeDate w.saleDate ≤ safeDateFold l init := by
  induction l with
  | nil => intro init w hw; cases hw
  | cons u l ih =>
    intro init w hw
    rcases List.mem_cons.1 hw with rfl | hw
    · have hstep : getSafeDate w.saleDate ≤
          if init < getSafeDate w.saleDate then getSafeDate w.saleDate else init := by
        by_cases h : init < getSafeDate w.saleDate
        · rw [if_pos h]
        · rw [if_neg h]; exact le_of_not_lt h
      exact le_trans hstep (init_le_safeDateFold l _)
    · exact ih _ w hw

/-- The safe-date fold's result is its seed or one of the matches' safe
dates. -/
theorem safeDateFold_mem (l : List LossSale) :
    ∀ init : Int, safeDateFold l init = init ∨
      ∃ w ∈ l, safeDateFold l init = getSafeDate w.saleDate := by
  induction l with
  | nil => intro init; exact Or.inl rfl
  | cons u l ih =>
    intro init
    have hrec : safeDateFold (u :: l) init =
        safeDateFold l (if init < getSafeDate u.saleDate then getSafeDate u.saleDate else init) :=
      rfl
    by_cases hc : init < getSafeDate u.saleDate
    · rw [hrec, if_pos hc]
      rcases ih (getSafeDate u.saleDate) with h | ⟨w, hw, hval⟩
      · exact Or.inr ⟨u, List.mem_cons_self u l, h⟩
      · exact Or.inr ⟨w, List.mem_cons_of_mem u hw, hval⟩
    · rw [hrec, if_neg hc]
      rcases ih init with h | ⟨w, hw, hval⟩
      · exact Or.inl h
      · exact Or.inr ⟨w, List.mem_cons_of_mem u hw, hval⟩

/-- C3 counterexample: an active window stored under the lowercase ticker
`aapl` matches the query `aapl` case-insensitively, yet `checkTicker`
reports safe, because the query alone is uppercased and then compared for
exact equality with the stored ticker. -/
theorem c3_check_ticker_counterexample :
    activeWindowsOf [demoLowerLs] 110 = [demoLowerLs] ∧
    specTickerMatch "aapl" demoLowerLs.ticker = true ∧
    checkTicker (activeWindowsOf [demoLowerLs] 110) 110 "aapl" =
      some (CheckResult.safe "AAPL") :=
  ⟨by decide, by decide, by decide⟩

/-- C3 amended: for a non-blank query, `checkTicker` keeps the active
windows whose stored ticker equals the uppercased trimmed query exactly
(case differences in stored tickers are not neutralized); it reports safe
iff none remain, and otherwise returns the full matching set together
with a safe date that bounds every match's `saleDate + 31` and is either
one of those values or the epoch seed of the fold, and the day count to
that date. -/
theorem c3_check_ticker_amended :
    ∀ (ws : List LossSale) (asOf : Int) (ticker : String),
      (jsTrim ticker).isEmpty = false →
      ((ws.filter fun w => w.ticker == jsToUpperCase (jsTrim ticker)) = [] →
        checkTicker ws asOf ticker = some (.safe (jsToUpperCase (jsTrim ticker)))) ∧
      ((ws.filter fun w => w.ticker == jsToUpperCase (jsTrim ticker)) ≠ [] →
        ∃ sd : Int,
          checkTicker ws asOf ticker =
            some (.warn (jsToUpperCase (jsTrim ticker))
              (ws.filter fun w => w.ticker == jsToUpperCase (jsTrim ticker)) sd
              (daysUntil sd asOf)) ∧
          (∀ w ∈ ws.filter fun w => w.ticker == jsToUpperCase (jsTrim ticker),
            getSafeDate w.saleDate ≤ sd) ∧
          (sd = epochDate ∨
            ∃ w ∈ ws.filter fun w => w.ticker == jsToUpperCase (jsTrim ticker),
              sd = getSafeDate w.saleDate)) := by
  intro ws asOf ticker hne
  have hcond : ¬ (jsTrim ticker).isEmpty = true := by
    rw [hne]
    exact Bool.false_ne_true
  constructor
  · intro hm
    unfold checkTicker
    rw [if_neg hcond]
    simp only
    rw [hm]
    rfl
  · intro hm
    unfold checkTicker
    rw [if_neg hcond]
    simp only
    have hmne : ¬ (ws.filter fun w => w.ticker == jsToUpperCase (jsTrim ticker)).isEmpty = true := by
      simp only [List.isEmpty_iff]
      exact hm
    rw [if_neg hmne]
    refine ⟨latestSafeDate (ws.filter fun w => w.ticker == jsToUpperCase (jsTrim ticker)),
      rfl, ?_, ?_⟩
    · intro w hw
      exact safeDateFold_ge _ epochDate w hw
    · exact safeDateFold_mem _ epochDate

/-- Witness for `c3_check_ticker_amended`: an empty window list reports
safe for the query `AAPL`. -/
theorem c3_check_ticker_amended_witness :
    checkTicker [] 0 "AAPL" = some (CheckResult.safe (jsToUpperCase (jsTrim "AAPL"))) :=
  (c3_check_ticker_amended [] 0 "AAPL" (by decide)).1 rfl

/-- The deduplication test succeeds exactly when the violation's key is
the given `(ticker, saleDate, buyDate)` triple. -/
theorem keyMatches_iff (v : Violation) (t : String) (sd bd : Int) :
    keyMatches v t sd bd = true ↔ violKey v = (t, sd, bd) := by
  unfold keyMatches violKey
  simp only [Bool.and_eq_true, beq_iff_eq, Prod.mk.injEq]
  tauto

/-- The backward pass preserves the violation-list invariant: its new
entries follow the proportional formula with respect to the loss sale
they reference, pair a strictly earlier buy date with the sale date, and
are key-deduplicated against everything already recorded. -/
theorem backwardScan_inv (txn : Txn) (ls : LossSale) (qs la : ℚ)
    (hsd : ls.saleDate = txn.date) (hq : ls.quantity = qs) (hla : ls.lossAmount = la) :
    ∀ (ts : List Txn) (vs : List Violation),
      ViolsInv vs → ViolsInv (backwardScan ts txn ls qs la vs) := by
  intro ts
  induction ts with
  | nil => exact fun vs h => h
  | cons pt rest ih =>
    intro vs h
    unfold backwardScan
    rw [List.foldl_cons]
    apply ih
    split
    · split
      · exact h
      · rename_i hcond hdedup
        simp only [Bool.and_eq_true, decide_eq_true_eq] at hcond
        obtain ⟨⟨⟨_, _⟩, hdate⟩, _⟩ := hcond
        obtain ⟨hf, hne, hkeys⟩ := h
        have hnokey : ∀ v ∈ vs, ¬ keyMatches v txn.ticker txn.date pt.date = true := by
          intro v hv hkm
          exact hdedup (List.any_eq_true.2 ⟨v, hv, hkm⟩)
        refine ⟨?_, ?_, ?_⟩
        · intro v hv
          rcases List.mem_append.1 hv with hv | hv
          · exact hf v hv
          · rw [List.mem_singleton] at hv
            subst hv
            show min pt.quantity qs / qs * la =
              min pt.quantity ls.quantity / ls.quantity * ls.lossAmount
            rw [hq, hla]
        · intro v hv
          rcases List.mem_append.1 hv with hv | hv
          · exact hne v hv
          · rw [List.mem_singleton] at hv
            subst hv
            show pt.date ≠ ls.saleDate
            rw [hsd]
            exact ne_of_lt hdate
        · refine List.pairwise_append.2 ⟨hkeys, List.pairwise_singleton _ _, ?_⟩
          intro v hv w hw
          rw [List.mem_singleton] at hw
          subst hw
          intro _ hkeq
          apply hnokey v hv
          apply (keyMatches_iff v _ _ _).2
          rw [hkeq]
          show (txn.ticker, ls.saleDate, pt.date) = (txn.ticker, txn.date, pt.date)
          rw [hsd]
    · exact h

/-- The forward pass preserves the violation-list invariant, provided
every recorded loss sale strictly predates the buy being processed. -/
theorem processBuy_inv (st : EngineState) (txn : Txn)
    (hls : ∀ ls ∈ st.lossSales, ls.saleDate < txn.date)
    (h : ViolsInv st.violations) :
    ViolsInv (processBuy st txn).violations := by
  obtain ⟨hf, hne, hkeys⟩ := h
  have hmem : ∀ w ∈ forwardViolations st.lossSales txn,
      w.buyDate = txn.date ∧ w.lossSale.saleDate < txn.date ∧ ProportionalLoss w := by
    intro w hw
    unfold forwardViolations at hw
    obtain ⟨l, hlmem, rfl⟩ := List.mem_map.1 hw
    exact ⟨rfl, hls l (List.mem_filter.1 hlmem).1, rfl⟩
  show ViolsInv (st.violations ++ forwardViolations st.lossSales txn)
  refine ⟨?_, ?_, ?_⟩
  · intro v hv
    rcases List.mem_append.1 hv with hv | hv
    · exact hf v hv
    · exact (hmem v hv).2.2
  · intro v hv
    rcases List.mem_append.1 hv with hv | hv
    · exact hne v hv
    · obtain ⟨hbd, hsdlt, _⟩ := hmem v hv
      rw [hbd]
      exact ne_of_gt hsdlt
  · refine List.pairwise_append.2 ⟨hkeys, ?_, ?_⟩
    · apply List.pairwise_of_forall_mem_list
      intro v hv w hw hbd
      obtain ⟨hvbd, hvsd, _⟩ := hmem v hv
      rw [hvbd] at hbd
      exact absurd hbd (lt_asymm hvsd)
    · intro v hv w hw hbd hkeq
      obtain ⟨hwbd, hwsd, _⟩ := hmem w hw
      have h1 : v.lossSale.saleDate = w.lossSale.saleDate := congrArg (fun k => k.2.1) hkeq
      have h2 : v.buyDate = w.buyDate := congrArg (fun k => k.2.2) hkeq
      rw [h2, hwbd, h1] at hbd
      exact lt_asymm hwsd hbd

/-- The Sell branch preserves the violation-list invariant. -/
theorem processSell_inv (allTxns : List Txn) (st : EngineState) (txn : Txn)
    (h : ViolsInv st.violations) :
    ViolsInv (processSell allTxns st txn).violations := by
  unfold processSell
  split
  · exact h
  · split
    · exact h
    · split
      · exact backwardScan_inv txn (sellLossSale st txn) (sellMatch st txn).2.1
          |sellGainLoss st txn| rfl rfl rfl allTxns st.violations h
      · exact h

/-- The Sell branch appends at most the one newly built loss sale. -/
theorem processSell_lossSales (allTxns : List Txn) (st : EngineState) (txn : Txn) :
    (processSell allTxns st txn).lossSales = st.lossSales ∨
      (processSell allTxns st txn).lossSales = st.lossSales ++ [sellLossSale st txn] := by
  unfold processSell
  split
  · exact Or.inl rfl
  · split
    · exact Or.inl rfl
    · split
      · exact Or.inr rfl
      · exact Or.inl rfl

/-- One traversal step keeps every recorded loss sale strictly before
every Buy still to be processed, thanks to the sort order. -/
theorem stepTxn_lossSales_bound (allTxns : List Txn) (st : EngineState) (txn : Txn)
    (rest : List Txn) (hsorted : ∀ t ∈ rest, txnLE txn t)
    (hprev : LossSalesBeforeBuys st.lossSales (txn :: rest)) :
    LossSalesBeforeBuys (stepTxn allTxns st txn).lossSales rest := by
  have htail : LossSalesBeforeBuys st.lossSales rest :=
    fun ls hls t ht => hprev ls hls t (List.mem_cons_of_mem _ ht)
  cases htt : txn.transType with
  | buy =>
    have hstep : stepTxn allTxns st txn = processBuy st txn := by
      unfold stepTxn
      rw [htt]
    rw [hstep]
    exact htail
  | sell =>
    have hstep : stepTxn allTxns st txn = processSell allTxns st txn := by
      unfold stepTxn
      rw [htt]
    rw [hstep]
    rcases processSell_lossSales allTxns st txn with h | h
    · rw [h]
      exact htail
    · rw [h]
      intro ls hls t ht htb
      rcases List.mem_append.1 hls with hls | hls
      · exact htail ls hls t ht htb
      · rw [List.mem_singleton] at hls
        subst hls
        show txn.date < t.date
        rcases hsorted t ht with hlt | ⟨_, hrank⟩
        · exact hlt
        · exfalso
          rw [sellRank, sellRank, htt, htb] at hrank
          simp at hrank

/-- The violation-list invariant holds along the whole sorted traversal. -/
theorem foldl_stepTxn_inv (allTxns : List Txn) :
    ∀ (rem : List Txn) (st : EngineState),
      rem.Pairwise txnLE →
      ViolsInv st.violations →
      LossSalesBeforeBuys st.lossSales rem →
      ViolsInv ((rem.foldl (stepTxn allTxns) st).violations) := by
  intro rem
  induction rem with
  | nil => exact fun st _ h _ => h
  | cons txn rest ih =>
    intro st hsort hv hls
    rw [List.foldl_cons]
    have hpair := List.pairwise_cons.1 hsort
    apply ih
    · exact hpair.2
    · cases htt : txn.transType with
      | buy =>
        have hstep : stepTxn allTxns st txn = processBuy st txn := by
          unfold stepTxn
          rw [htt]
        rw [hstep]
        refine processBuy_inv st txn ?_ hv
        intro ls hlsm
        exact hls ls hlsm txn (List.mem_cons_self _ _) htt
      | sell =>
        have hstep : stepTxn allTxns st txn = processSell allTxns st txn := by
          unfold stepTxn
          rw [htt]
        rw [hstep]
        exact processSell_inv allTxns st txn hv
    · exact stepTxn_lossSales_bound allTxns st txn rest hpair.1 hls

/-- Every finished engine run satisfies the violation-list invariant. -/
theorem runEngine_violsInv (txns : List Txn) : ViolsInv (runEngine txns).violations := by
  unfold runEngine
  apply foldl_stepTxn_inv
  · exact List.sorted_insertionSort txnLE txns
  · exact ⟨fun v hv => absurd hv (List.not_mem_nil v),
      fun v hv => absurd hv (List.not_mem_nil v), List.Pairwise.nil⟩
  · exact fun ls hls => absurd hls (List.not_mem_nil ls)

/-- A list that is pairwise never-both-satisfying keeps at most one
element under the filter. -/
theorem length_filter_le_one_of_pairwise {α : Type} (p : α → Bool) :
    ∀ l : List α, l.Pairwise (fun a b => ¬(p a = true ∧ p b = true)) →
      (l.filter p).length ≤ 1 := by
  intro l
  induction l with
  | nil => intro _; simp
  | cons a l ih =>
    intro h
    obtain ⟨ha, hl⟩ := List.pairwise_cons.1 h
    by_cases hpa : p a = true
    · rw [List.filter_cons_of_pos hpa]
      have hnil : l.filter p = [] := by
        rw [List.filter_eq_nil_iff]
        intro b hb hpb
        exact ha b hb ⟨hpa, hpb⟩
      rw [hnil]
      exact le_rfl
    · rw [List.filter_cons_of_neg hpa]
      exact ih hl

section ConcreteInvariants

attribute [local semireducible] Rat.add Rat.mul Rat.inv Rat.sub

/-- C7: every violation either pass emits carries
`disallowedLoss = min(buyQuantity, quantitySold) / quantitySold ×
lossAmount` of its own loss sale, computed per pair; concretely, one buy
before and one buy after a loss sale each yield the full loss amount, so
the total disallowed (100) exceeds the loss (50) and is not capped. -/
theorem c7_proportional_disallowed :
    (∀ (txns : List Txn) (asOf : Int),
        ∀ v ∈ (processTransactions txns asOf).violations,
          v.disallowedLoss =
            min v.buyQuantity v.lossSale.quantity / v.lossSale.quantity *
              v.lossSale.lossAmount) ∧
    (processTransactions demoUncapped 0).violations =
      [⟨"T", demoLs50, 40, 10, 50⟩, ⟨"T", demoLs50, 60, 10, 50⟩] ∧
    ((processTransactions demoUncapped 0).violations.map Violation.disallowedLoss).sum =
      2 * demoLs50.lossAmount := by
  refine ⟨?_, by decide, by decide⟩
  intro txns asOf v hv
  exact (runEngine_violsInv txns).1 v hv

/-- Witness for `c7_proportional_disallowed`: the backward-pass violation
of `demoUncapped` satisfies the proportional formula. -/
theorem c7_proportional_disallowed_witness :
    (Violation.mk "T" demoLs50 40 10 50).disallowedLoss =
      min (Violation.mk "T" demoLs50 40 10 50).buyQuantity
          (Violation.mk "T" demoLs50 40 10 50).lossSale.quantity /
        (Violation.mk "T" demoLs50 40 10 50).lossSale.quantity *
        (Violation.mk "T" demoLs50 40 10 50).lossSale.lossAmount :=
  c7_proportional_disallowed.1 demoUncapped 0 _ (by decide)

/-- C8: a `(ticker, saleDate, buyDate)` triple with the buy strictly
before the sale identifies at most one violation in any report — the
backward pass skips pairs already recorded under that key — and the
buy-before-with-nothing-after scenario yields exactly the one
violation. -/
theorem c8_violation_dedup :
    (∀ (txns : List Txn) (asOf : Int) (t : String) (sd bd : Int),
        bd < sd →
        ((processTransactions txns asOf).violations.filter fun v =>
            keyMatches v t sd bd).length ≤ 1) ∧
    (processTransactions demoDedup 0).violations = [⟨"T", demoLs40, 20, 10, 50⟩] := by
  refine ⟨?_, by decide⟩
  intro txns asOf t sd bd hlt
  apply length_filter_le_one_of_pairwise
  have hkeys : KeyedOnce (runEngine txns).violations := (runEngine_violsInv txns).2.2
  apply List.Pairwise.imp ?_ hkeys
  intro v w hrel hp
  obtain ⟨hpv, hpw⟩ := hp
  have h1 := (keyMatches_iff v t sd bd).1 hpv
  have h2 := (keyMatches_iff w t sd bd).1 hpw
  have hvbd : v.buyDate = bd := congrArg (fun k => k.2.2) h1
  have hvsd : v.lossSale.saleDate = sd := congrArg (fun k => k.2.1) h1
  exact hrel (by rw [hvbd, hvsd]; exact hlt) (h1.trans h2.symm)

/-- Witness for `c8_violation_dedup`: the dedup bound evaluated on the
concrete scenario's key. -/
theorem c8_violation_dedup_witness :
    ((processTransactions demoDedup 0).violations.filter fun v =>
        keyMatches v "T" 40 20).length ≤ 1 :=
  c8_violation_dedup.1 demoDedup 0 "T" 40 20 (by decide)

/-- C10: no violation in any report pairs a buy with its own sale date —
same-day buys are sorted before the sell, so the forward pass sees only
earlier loss sales, and the backward pass only scans strictly earlier
buys; concretely, a same-ticker buy dated exactly on the sale date of a
loss sale lies inside the inclusive window yet yields no violation. -/
theorem c10_same_day_buy_never_violates :
    (∀ (txns : List Txn) (asOf : Int),
        ∀ v ∈ (processTransactions txns asOf).violations,
          v.buyDate ≠ v.lossSale.saleDate) ∧
    isInWashWindow 50 50 = true ∧
    (processTransactions demoSameDayBuy 0).lossSales = [demoLsSameDay] ∧
    (processTransactions demoSameDayBuy 0).violations = [] := by
  refine ⟨?_, by decide, by decide, by decide⟩
  intro txns asOf v hv
  exact (runEngine_violsInv txns).2.1 v hv

/-- Witness for `c10_same_day_buy_never_violates`: the violation of
`demoDedup` pairs day 20 with sale day 40, and 20 ≠ 40. -/
theorem c10_same_day_buy_never_violates_witness :
    (Violation.mk "T" demoLs40 20 10 50).buyDate ≠
      (Violation.mk "T" demoLs40 20 10 50).lossSale.saleDate :=
  c10_same_day_buy_never_violates.1 demoDedup 0 _ (by decide)

end ConcreteInvariants

end WashSale
